import Mathlib

/-!
Verification of the vtzero vector-tile decoder (geometry command decoder and
layer reader) against its natural-language specification.

The embedding follows `include/vtzero/layer.hpp` and the bundled
`geometry.hpp`.  Machine integers (`int32_t`, `int64_t`, `uint32_t`,
`uint64_t`) are modeled as `Int`/`Nat`: signed overflow is undefined
behavior in the source language, so exact-integer semantics is the defined
semantics; unsigned 32-bit command/parameter integers are `Nat` values that
a well-formed stream keeps below `2^32`.  The external record codec
(protozero) is modeled at its documented contract level: a message is a
list of `(field_number, wire_type, payload)` triples, with payloads of
length-delimited fields themselves given at the triple level (byte-string
payloads such as layer names are opaque in every claim).
-/

namespace Vtzero

/-- A 2D point with `int32_t` coordinates (`struct point` in geometry.hpp);
coordinates are modeled as exact integers. -/
structure Pt where
  x : Int
  y : Int
deriving DecidableEq, Repr

/-- `protozero::decode_zigzag32`: zigzag decoding of an unsigned 32-bit
parameter integer into a signed delta. -/
def decode_zigzag32 (n : Nat) : Int :=
  if n % 2 = 0 then ((n / 2 : Nat) : Int) else -((n / 2 : Nat) : Int) - 1

/-- `detail::get_command_id`: low three bits of a command integer. -/
def get_command_id (w : Nat) : Nat := w % 8

/-- `detail::get_command_count`: the command integer shifted right by 3. -/
def get_command_count (w : Nat) : Nat := w / 8

/-- `detail::command_integer`: build a command integer from id and count
(for counts below `2^29` this equals the C++ `(id & 0x7) | (count << 3)`). -/
def command_integer (id count : Nat) : Nat := id % 8 + 8 * count

/-- `detail::det`: the 64-bit determinant `a.x * b.y - b.x * a.y` used for
the shoelace sum (products of `int32_t` values never overflow `int64_t`). -/
def det (a b : Pt) : Int := a.x * b.y - b.x * a.y

/-- Callbacks of the geometry handler, recorded as an event trace. -/
inductive Event where
  | points_begin (n : Nat)
  | points_point (p : Pt)
  | points_end
  | linestring_begin (n : Nat)
  | linestring_point (p : Pt)
  | linestring_end
  | ring_begin (n : Nat)
  | ring_point (p : Pt)
  | ring_end (is_outer : Bool)
deriving DecidableEq, Repr

/-- State of `detail::basic_geometry_decoder`: the remaining integer
stream (`m_it`/`m_end`), the cursor, the current command id and the
pending count.  The `m_strict` member is passed as an explicit argument
to the operations that consult it. -/
structure DecoderState where
  stream : List Nat
  cursor : Pt
  command_id : Nat
  count : Nat
deriving DecidableEq, Repr

/-- `basic_geometry_decoder::next_command`.  Returns `false` at the end of
the stream; checks the ClosePath count rule and the expected command id;
all errors are `geometry_exception` messages. -/
def next_command (expected : Nat) (st : DecoderState) : Except String (Bool × DecoderState) :=
  match st.stream with
  | [] => .ok (false, st)
  | w :: rest =>
    let cid := get_command_id w
    if cid = 7 ∧ get_command_count w ≠ 1 then
      .error "ClosePath command count is not 1"
    else
      let st' := if cid = 7 then { st with command_id := cid }
                 else { st with command_id := cid, count := get_command_count w }
      if cid ≠ expected then
        .error ("expected command " ++ toString expected ++ " but got " ++ toString cid)
      else
        .ok (true, { st' with stream := rest })

/-- `basic_geometry_decoder::next_point`.  Consumes two zigzag-encoded
parameter integers, applies the strict-mode check for a LineTo segment
with both deltas zero, and advances the cursor. -/
def next_point (strict : Bool) (st : DecoderState) : Except String (Pt × DecoderState) :=
  match st.stream with
  | w1 :: w2 :: rest =>
    let x := decode_zigzag32 w1
    let y := decode_zigzag32 w2
    if strict = true ∧ st.command_id = 2 ∧ x = 0 ∧ y = 0 then
      .error "found consecutive equal points (spec 4.3.3.2) (strict mode)"
    else
      let c : Pt := ⟨st.cursor.x + x, st.cursor.y + y⟩
      .ok (c, { st with stream := rest, cursor := c, count := st.count - 1 })
  | _ => .error "too few points in geometry"

theorem next_command_false_iff (expected : Nat) (st st' : DecoderState) :
    next_command expected st = .ok (false, st') ↔ st.stream = [] ∧ st' = st := by
  unfold next_command
  cases hs : st.stream with
  | nil => simp [eq_comm]
  | cons w rest =>
    simp only [List.cons.injEq]
    constructor
    · intro h
      split at h
      · cases h
      · split at h
        · cases h
        · simp at h
    · rintro ⟨h, -⟩
      cases h

theorem next_command_true_ne7 (expected : Nat) (h7 : expected ≠ 7) (st st' : DecoderState) :
    next_command expected st = .ok (true, st') ↔
      ∃ w rest, st.stream = w :: rest ∧ w % 8 = expected ∧
        st' = { st with stream := rest, command_id := expected, count := w / 8 } := by
  unfold next_command
  cases hs : st.stream with
  | nil => simp
  | cons w rest =>
    simp only [List.cons.injEq]
    constructor
    · intro h
      split at h
      · cases h
      · rename_i hcp
        split at h
        · cases h
        · rename_i heq
          simp only [ne_eq, Decidable.not_not] at heq
          have hw7 : get_command_id w ≠ 7 := by rw [heq]; exact h7
          rw [if_neg hw7] at h
          simp only [Except.ok.injEq, Prod.mk.injEq, true_and] at h
          refine ⟨w, rest, ⟨rfl, rfl⟩, by simpa [get_command_id] using heq, ?_⟩
          rw [← h, heq]
          rfl
    · rintro ⟨w', rest', ⟨hw, hr⟩, hmod, hst⟩
      subst hw; subst hr
      have hid : get_command_id w = expected := by simpa [get_command_id] using hmod
      have hw7 : get_command_id w ≠ 7 := by rw [hid]; exact h7
      rw [if_neg (by simp [hw7]), if_neg hw7, if_neg (by simp [hid]), hst, hid]
      rfl

theorem next_command_true_7 (st st' : DecoderState) :
    next_command 7 st = .ok (true, st') ↔
      ∃ w rest, st.stream = w :: rest ∧ w % 8 = 7 ∧ w / 8 = 1 ∧
        st' = { st with stream := rest, command_id := 7 } := by
  unfold next_command
  cases hs : st.stream with
  | nil => simp
  | cons w rest =>
    simp only [List.cons.injEq]
    constructor
    · intro h
      split at h
      · cases h
      · rename_i hcp
        split at h
        · cases h
        · rename_i heq
          simp only [ne_eq, Decidable.not_not] at heq
          have hid : get_command_id w = 7 := heq
          have hcount : get_command_count w = 1 := by
            by_contra hcnt
            exact hcp ⟨hid, hcnt⟩
          rw [if_pos hid] at h
          simp only [Except.ok.injEq, Prod.mk.injEq, true_and] at h
          refine ⟨w, rest, ⟨rfl, rfl⟩, by simpa [get_command_id] using hid,
            by simpa [get_command_count] using hcount, ?_⟩
          rw [← h, hid]
    · rintro ⟨w', rest', ⟨hw, hr⟩, hmod, hdiv, hst⟩
      subst hw; subst hr
      have hid : get_command_id w = 7 := hmod
      have hcount : get_command_count w = 1 := hdiv
      rw [if_neg (by simp [hid, hcount]), if_pos hid, if_neg (by simp [hid]), hst, hid]

theorem next_point_ok_iff (strict : Bool) (st : DecoderState) (p : Pt) (st' : DecoderState) :
    next_point strict st = .ok (p, st') ↔
      ∃ w1 w2 rest, st.stream = w1 :: w2 :: rest ∧
        ¬ (strict = true ∧ st.command_id = 2 ∧ decode_zigzag32 w1 = 0 ∧ decode_zigzag32 w2 = 0) ∧
        p = ⟨st.cursor.x + decode_zigzag32 w1, st.cursor.y + decode_zigzag32 w2⟩ ∧
        st' = { st with stream := rest, cursor := p, count := st.count - 1 } := by
  unfold next_point
  cases hs : st.stream with
  | nil => simp
  | cons w1 t =>
    cases t with
    | nil => simp
    | cons w2 rest =>
      simp only [List.cons.injEq]
      constructor
      · intro h
        split at h
        · cases h
        · rename_i hstrict
          simp only [Except.ok.injEq, Prod.mk.injEq] at h
          exact ⟨w1, w2, rest, ⟨rfl, rfl, rfl⟩, hstrict, h.1.symm, by rw [← h.2, ← h.1]⟩
      · rintro ⟨w1', w2', rest', ⟨h1, h2, h3⟩, hstrict, hp, hst⟩
        subst h1; subst h2; subst h3
        rw [hp] at hst ⊢
        simp [hstrict, hst]

/-- The loop `while (decoder.count() > 0) emit(decoder.next_point())`
shared by the point and linestring decoders. -/
def readPoints (strict : Bool) (st : DecoderState) : Except String (List Pt × DecoderState) :=
  if h : st.count = 0 then .ok ([], st)
  else
    match hnp : next_point strict st with
    | .error e => .error e
    | .ok (p, st') =>
      match readPoints strict st' with
      | .error e => .error e
      | .ok (ps, st'') => .ok (p :: ps, st'')
termination_by st.count
decreasing_by
  rw [next_point_ok_iff] at hnp
  obtain ⟨w1, w2, rest, -, -, -, hst⟩ := hnp
  subst hst
  simp only [DecoderState.count]
  omega

/-- The polygon ring loop: emits each point while accumulating the
shoelace sum `sum += det(last_point, p)` and tracking the last point. -/
def ringLoop (strict : Bool) (last : Pt) (sum : Int) (st : DecoderState) :
    Except String (List Pt × Pt × Int × DecoderState) :=
  if h : st.count = 0 then .ok ([], last, sum, st)
  else
    match hnp : next_point strict st with
    | .error e => .error e
    | .ok (p, st') =>
      match ringLoop strict p (sum + det last p) st' with
      | .error e => .error e
      | .ok (ps, lst, sm, st'') => .ok (p :: ps, lst, sm, st'')
termination_by st.count
decreasing_by
  rw [next_point_ok_iff] at hnp
  obtain ⟨w1, w2, rest, -, -, -, hst⟩ := hnp
  subst hst
  simp only [DecoderState.count]
  omega

theorem readPoints_stream_length (strict : Bool) :
    ∀ (n : Nat) (st : DecoderState), st.count ≤ n → ∀ (ps : List Pt) (st' : DecoderState),
      readPoints strict st = .ok (ps, st') → st'.stream.length ≤ st.stream.length := by
  intro n
  induction n with
  | zero =>
    intro st hle ps st' h
    have h0 : st.count = 0 := Nat.le_zero.mp hle
    rw [readPoints, dif_pos h0] at h
    simp only [Except.ok.injEq, Prod.mk.injEq] at h
    rw [h.2]
  | succ n ih =>
    intro st hle ps st' h
    rw [readPoints] at h
    split at h
    · simp only [Except.ok.injEq, Prod.mk.injEq] at h
      rw [h.2]
    · split at h
      · cases h
      · rename_i p st1 hnp
        split at h
        · cases h
        · rename_i ps1 st2 hrec
          simp only [Except.ok.injEq, Prod.mk.injEq] at h
          rw [next_point_ok_iff] at hnp
          obtain ⟨w1, w2, rest, hs, -, -, hst⟩ := hnp
          have hcnt : st1.count ≤ n := by rw [hst]; simp; omega
          have h1 : st2.stream.length ≤ st1.stream.length := ih st1 hcnt ps1 st2 hrec
          rw [← h.2]
          rw [hst] at h1
          simp only [hs, List.length_cons]
          simp at h1
          omega

theorem ringLoop_stream_length (strict : Bool) :
    ∀ (n : Nat) (last : Pt) (sum : Int) (st : DecoderState), st.count ≤ n →
      ∀ (ps : List Pt) (lst : Pt) (sm : Int) (st' : DecoderState),
        ringLoop strict last sum st = .ok (ps, lst, sm, st') →
        st'.stream.length ≤ st.stream.length := by
  intro n
  induction n with
  | zero =>
    intro last sum st hle ps lst sm st' h
    have h0 : st.count = 0 := Nat.le_zero.mp hle
    rw [ringLoop, dif_pos h0] at h
    simp only [Except.ok.injEq, Prod.mk.injEq] at h
    rw [h.2.2.2]
  | succ n ih =>
    intro last sum st hle ps lst sm st' h
    rw [ringLoop] at h
    split at h
    · simp only [Except.ok.injEq, Prod.mk.injEq] at h
      rw [h.2.2.2]
    · split at h
      · cases h
      · rename_i p st1 hnp
        split at h
        · cases h
        · rename_i ps1 lst1 sm1 st2 hrec
          simp only [Except.ok.injEq, Prod.mk.injEq] at h
          rw [next_point_ok_iff] at hnp
          obtain ⟨w1, w2, rest, hs, -, -, hst⟩ := hnp
          have hcnt : st1.count ≤ n := by rw [hst]; simp; omega
          have h1 : st2.stream.length ≤ st1.stream.length := ih p (sum + det last p) st1 hcnt ps1 lst1 sm1 st2 hrec
          rw [← h.2.2.2]
          rw [hst] at h1
          simp only [hs, List.length_cons]
          simp at h1
          omega

/-- `decode_point_geometry` (geometry.hpp): a single MoveTo command with
count at least 1, exactly that many points, and no trailing data.  The
handler calls are returned as an event list. -/
def decode_point_geometry (s : List Nat) (strict : Bool) : Except String (List Event) :=
  match next_command 1 ⟨s, ⟨0, 0⟩, 0, 0⟩ with
  | .error e => .error e
  | .ok (false, _) => .error "expected MoveTo command (spec 4.3.4.2)"
  | .ok (true, st1) =>
    if st1.count = 0 then .error "MoveTo command count is zero (spec 4.3.4.2)"
    else
      match readPoints strict st1 with
      | .error e => .error e
      | .ok (pts, st2) =>
        if st2.stream ≠ [] then .error "additional data after end of geometry (spec 4.3.4.2)"
        else .ok (Event.points_begin st1.count :: pts.map Event.points_point ++ [Event.points_end])

/-- The body of one iteration of the `decode_linestring_geometry` loop,
entered after `next_command(command_move_to())` returned `true`. -/
def decodeLine (strict : Bool) (st1 : DecoderState) : Except String (List Event × DecoderState) :=
  if st1.count ≠ 1 then .error "MoveTo command count is not 1 (spec 4.3.4.3)"
  else
    match next_point strict st1 with
    | .error e => .error e
    | .ok (first_point, st2) =>
      match next_command 2 st2 with
      | .error e => .error e
      | .ok (false, _) => .error "expected LineTo command (spec 4.3.4.3)"
      | .ok (true, st3) =>
        if st3.count = 0 then .error "LineTo command count is zero (spec 4.3.4.3)"
        else
          match readPoints strict st3 with
          | .error e => .error e
          | .ok (pts, st4) =>
            .ok (Event.linestring_begin (st3.count + 1) :: Event.linestring_point first_point ::
                  pts.map Event.linestring_point ++ [Event.linestring_end], st4)

theorem decodeLine_stream_length (strict : Bool) (st1 : DecoderState) (evts : List Event)
    (st4 : DecoderState) (h : decodeLine strict st1 = .ok (evts, st4)) :
    st4.stream.length < st1.stream.length := by
  unfold decodeLine at h
  split at h
  · cases h
  · split at h
    · cases h
    · rename_i first st2 hnp
      split at h
      · cases h
      · cases h
      · rename_i st3 hnc
        split at h
        · cases h
        · split at h
          · cases h
          · rename_i pts st4' hrp
            simp only [Except.ok.injEq, Prod.mk.injEq] at h
            have hle := readPoints_stream_length strict st3.count st3 le_rfl pts st4' hrp
            rw [next_point_ok_iff] at hnp
            obtain ⟨w1, w2, rest, hs, -, -, hst2⟩ := hnp
            rw [next_command_true_ne7 2 (by decide)] at hnc
            obtain ⟨w, rest', hs3, -, hst3⟩ := hnc
            rw [← h.2] at *
            rw [hst3] at hle
            rw [hst2] at hs3 hle
            simp at hs3 hle
            rw [hs, hs3]
            simp
            omega

/-- The `while (decoder.next_command(command_move_to()))` loop of
`decode_linestring_geometry`. -/
def decode_linestring_go (strict : Bool) (st : DecoderState) : Except String (List Event) :=
  match hnc : next_command 1 st with
  | .error e => .error e
  | .ok (false, _) => .ok []
  | .ok (true, st1) =>
    match hdl : decodeLine strict st1 with
    | .error e => .error e
    | .ok (evts, st2) =>
      match decode_linestring_go strict st2 with
      | .error e => .error e
      | .ok rest => .ok (evts ++ rest)
termination_by st.stream.length
decreasing_by
  have h1 := decodeLine_stream_length strict st1 evts st2 hdl
  rw [next_command_true_ne7 1 (by decide)] at hnc
  obtain ⟨w, rest', hs, -, hst⟩ := hnc
  rw [hst] at h1
  simp only [hs, List.length_cons]
  simp at h1
  omega

/-- `decode_linestring_geometry` (geometry.hpp). -/
def decode_linestring_geometry (s : List Nat) (strict : Bool) : Except String (List Event) :=
  decode_linestring_go strict ⟨s, ⟨0, 0⟩, 0, 0⟩

/-- The body of one iteration of the `decode_polygon_geometry` loop,
entered after `next_command(command_move_to())` returned `true`: reads the
start point, the LineTo run (accumulating the shoelace sum), the ClosePath
command, adds the determinant of the implicit closing segment, re-emits
the start point and reports `ring_end(sum > 0)`. -/
def decodeRing (strict : Bool) (st1 : DecoderState) : Except String (List Event × DecoderState) :=
  if st1.count ≠ 1 then .error "MoveTo command count is not 1 (spec 4.3.4.4)"
  else
    match next_point strict st1 with
    | .error e => .error e
    | .ok (start_point, st2) =>
      match next_command 2 st2 with
      | .error e => .error e
      | .ok (false, _) => .error "expected LineTo command (spec 4.3.4.4)"
      | .ok (true, st3) =>
        if strict = true ∧ st3.count ≤ 1 then
          .error "LineTo command count is not greater than 1 (spec 4.3.4.4)"
        else
          match ringLoop strict start_point 0 st3 with
          | .error e => .error e
          | .ok (pts, last_point, sum, st4) =>
            match next_command 7 st4 with
            | .error e => .error e
            | .ok (false, _) => .error "expected ClosePath command (4.3.4.4)"
            | .ok (true, st5) =>
              .ok (Event.ring_begin (st3.count + 2) :: Event.ring_point start_point ::
                    pts.map Event.ring_point ++
                    [Event.ring_point start_point,
                     Event.ring_end (decide (sum + det last_point start_point > 0))], st5)

theorem decodeRing_stream_length (strict : Bool) (st1 : DecoderState) (evts : List Event)
    (st5 : DecoderState) (h : decodeRing strict st1 = .ok (evts, st5)) :
    st5.stream.length < st1.stream.length := by
  unfold decodeRing at h
  split at h
  · cases h
  · split at h
    · cases h
    · rename_i start st2 hnp
      split at h
      · cases h
      · cases h
      · rename_i st3 hnc
        split at h
        · cases h
        · split at h
          · cases h
          · rename_i pts last sum st4 hrl
            split at h
            · cases h
            · cases h
            · rename_i st5' hnc7
              simp only [Except.ok.injEq, Prod.mk.injEq] at h
              have hle := ringLoop_stream_length strict st3.count start 0 st3 le_rfl pts last sum st4 hrl
              rw [next_point_ok_iff] at hnp
              obtain ⟨w1, w2, rest, hs, -, -, hst2⟩ := hnp
              rw [next_command_true_ne7 2 (by decide)] at hnc
              obtain ⟨w, rest', hs3, -, hst3⟩ := hnc
              rw [next_command_true_7] at hnc7
              obtain ⟨w7, rest7, hs7, -, -, hst7⟩ := hnc7
              rw [← h.2] at *
              rw [hst3] at hle
              rw [hst2] at hs3 hle
              simp at hs3 hle
              rw [hs7] at hle
              rw [hst7, hs, hs3]
              simp at hle ⊢
              omega

/-- The `while (decoder.next_command(command_move_to()))` loop of
`decode_polygon_geometry`. -/
def decode_polygon_go (strict : Bool) (st : DecoderState) : Except String (List Event) :=
  match hnc : next_command 1 st with
  | .error e => .error e
  | .ok (false, _) => .ok []
  | .ok (true, st1) =>
    match hdr : decodeRing strict st1 with
    | .error e => .error e
    | .ok (evts, st2) =>
      match decode_polygon_go strict st2 with
      | .error e => .error e
      | .ok rest => .ok (evts ++ rest)
termination_by st.stream.length
decreasing_by
  have h1 := decodeRing_stream_length strict st1 evts st2 hdr
  rw [next_command_true_ne7 1 (by decide)] at hnc
  obtain ⟨w, rest', hs, -, hst⟩ := hnc
  rw [hst] at h1
  simp only [hs, List.length_cons]
  simp at h1
  omega

/-- `decode_polygon_geometry` (geometry.hpp). -/
def decode_polygon_geometry (s : List Nat) (strict : Bool) : Except String (List Event) :=
  decode_polygon_go strict ⟨s, ⟨0, 0⟩, 0, 0⟩

/-- Sum of the determinants along an open path: `pathSum prev ps` is
`det prev p1 + det p1 p2 + ...` for `ps = [p1, p2, ...]`. -/
def pathSum (prev : Pt) : List Pt → Int
  | [] => 0
  | p :: ps => det prev p + pathSum p ps

/-- The shoelace sum of a ring, written from the specification: the sum of
`det(p_prev, p_next)` over all consecutive segments of the vertex list,
including the implicit closing segment from the last vertex back to the
first. -/
def ringShoelace : List Pt → Int
  | [] => 0
  | p :: ps => pathSum p ps + det (ps.getLastD p) p

theorem ringLoop_sum (strict : Bool) :
    ∀ (n : Nat) (last : Pt) (sum : Int) (st : DecoderState), st.count ≤ n →
      ∀ (ps : List Pt) (lst : Pt) (sm : Int) (st' : DecoderState),
        ringLoop strict last sum st = .ok (ps, lst, sm, st') →
        sm = sum + pathSum last ps ∧ lst = ps.getLastD last := by
  intro n
  induction n with
  | zero =>
    intro last sum st hle ps lst sm st' h
    have h0 : st.count = 0 := Nat.le_zero.mp hle
    rw [ringLoop, dif_pos h0] at h
    simp only [Except.ok.injEq, Prod.mk.injEq] at h
    obtain ⟨h1, h2, h3, -⟩ := h
    subst h1
    simp [pathSum, h2.symm, h3.symm]
  | succ n ih =>
    intro last sum st hle ps lst sm st' h
    rw [ringLoop] at h
    split at h
    · simp only [Except.ok.injEq, Prod.mk.injEq] at h
      obtain ⟨h1, h2, h3, -⟩ := h
      subst h1
      simp [pathSum, h2.symm, h3.symm]
    · split at h
      · cases h
      · rename_i p st1 hnp
        split at h
        · cases h
        · rename_i ps1 lst1 sm1 st2 hrec
          simp only [Except.ok.injEq, Prod.mk.injEq] at h
          obtain ⟨h1, h2, h3, -⟩ := h
          subst h1; subst h2; subst h3
          rw [next_point_ok_iff] at hnp
          obtain ⟨w1, w2, rest, -, -, -, hst⟩ := hnp
          have hcnt : st1.count ≤ n := by rw [hst]; simp; omega
          obtain ⟨ih1, ih2⟩ := ih p (sum + det last p) st1 hcnt ps1 lst1 sm1 st2 hrec
          constructor
          · rw [ih1, pathSum]
            ring
          · rw [ih2, List.getLastD_cons]

theorem decodeRing_ok_shape (strict : Bool) (st1 : DecoderState) (evts : List Event)
    (st' : DecoderState) (h : decodeRing strict st1 = .ok (evts, st')) :
    ∃ (n : Nat) (p0 : Pt) (ps : List Pt),
      evts = Event.ring_begin n :: Event.ring_point p0 :: ps.map Event.ring_point ++
        [Event.ring_point p0, Event.ring_end (decide (ringShoelace (p0 :: ps) > 0))] := by
  unfold decodeRing at h
  split at h
  · cases h
  · split at h
    · cases h
    · rename_i start st2 hnp
      split at h
      · cases h
      · cases h
      · rename_i st3 hnc
        split at h
        · cases h
        · split at h
          · cases h
          · rename_i pts last sum st4 hrl
            split at h
            · cases h
            · cases h
            · rename_i st5 hnc7
              simp only [Except.ok.injEq, Prod.mk.injEq] at h
              obtain ⟨ih1, ih2⟩ := ringLoop_sum strict st3.count start 0 st3 le_rfl pts last sum st4 hrl
              refine ⟨st3.count + 2, start, pts, ?_⟩
              rw [← h.1, ih1, ih2, ringShoelace]
              simp

/-- The property of one emitted polygon ring block: the first point is
re-emitted as the last `ring_point`, and `ring_end` carries the boolean
`shoelace sum > 0` computed over all consecutive segments including the
implicit closing segment. -/
def IsRingBlock (b : List Event) : Prop :=
  ∃ (n : Nat) (p0 : Pt) (ps : List Pt),
    b = Event.ring_begin n :: Event.ring_point p0 :: ps.map Event.ring_point ++
      [Event.ring_point p0, Event.ring_end (decide (ringShoelace (p0 :: ps) > 0))]

theorem decode_polygon_go_blocks (strict : Bool) :
    ∀ (n : Nat) (st : DecoderState), st.stream.length ≤ n →
      ∀ (evts : List Event), decode_polygon_go strict st = .ok evts →
        ∃ (blocks : List (List Event)), evts = blocks.flatten ∧ ∀ b ∈ blocks, IsRingBlock b := by
  intro n
  induction n with
  | zero =>
    intro st hle evts h
    rw [decode_polygon_go] at h
    split at h
    · cases h
    · simp only [Except.ok.injEq] at h
      exact ⟨[], by simp [← h]⟩
    · rename_i st1 hnc
      rw [next_command_true_ne7 1 (by decide)] at hnc
      obtain ⟨w, rest, hs, -, -⟩ := hnc
      rw [hs] at hle
      simp at hle
  | succ n ih =>
    intro st hle evts h
    rw [decode_polygon_go] at h
    split at h
    · cases h
    · simp only [Except.ok.injEq] at h
      exact ⟨[], by simp [← h]⟩
    · rename_i st1 hnc
      split at h
      · cases h
      · rename_i evts1 st2 hdr
        split at h
        · cases h
        · rename_i rest hrec
          simp only [Except.ok.injEq] at h
          have hlen2 : st2.stream.length ≤ n := by
            have h1 := decodeRing_stream_length strict st1 evts1 st2 hdr
            rw [next_command_true_ne7 1 (by decide)] at hnc
            obtain ⟨w, rest', hs, -, hst⟩ := hnc
            rw [hst] at h1
            rw [hs] at hle
            simp at h1 hle
            omega
          obtain ⟨blocks, hb1, hb2⟩ := ih st2 hlen2 rest hrec
          refine ⟨evts1 :: blocks, ?_, ?_⟩
          · rw [← h, hb1]
            simp
          · intro b hb
            rcases List.mem_cons.mp hb with hb | hb
            · rw [hb]
              exact decodeRing_ok_shape strict st1 evts1 st2 hdr
            · exact hb2 b hb

theorem readPoints_zero (strict : Bool) (st : DecoderState) (h0 : st.count = 0) :
    readPoints strict st = .ok ([], st) := by
  rw [readPoints, dif_pos h0]

theorem readPoints_cons (strict : Bool) (st st' st'' : DecoderState) (p : Pt) (ps : List Pt)
    (h0 : st.count ≠ 0) (h1 : next_point strict st = .ok (p, st'))
    (h2 : readPoints strict st' = .ok (ps, st'')) :
    readPoints strict st = .ok (p :: ps, st'') := by
  rw [readPoints, dif_neg h0]
  split
  · rename_i e heq
    rw [h1] at heq
    cases heq
  · rename_i p' st1 heq
    rw [h1] at heq
    simp only [Except.ok.injEq, Prod.mk.injEq] at heq
    rw [← heq.1, ← heq.2, h2]

theorem ringLoop_zero (strict : Bool) (last : Pt) (sum : Int) (st : DecoderState)
    (h0 : st.count = 0) : ringLoop strict last sum st = .ok ([], last, sum, st) := by
  rw [ringLoop, dif_pos h0]

theorem ringLoop_cons (strict : Bool) (last : Pt) (sum : Int) (st st' st'' : DecoderState)
    (p lst : Pt) (ps : List Pt) (sm : Int)
    (h0 : st.count ≠ 0) (h1 : next_point strict st = .ok (p, st'))
    (h2 : ringLoop strict p (sum + det last p) st' = .ok (ps, lst, sm, st'')) :
    ringLoop strict last sum st = .ok (p :: ps, lst, sm, st'') := by
  rw [ringLoop, dif_neg h0]
  split
  · rename_i e heq
    rw [h1] at heq
    cases heq
  · rename_i p' st1 heq
    rw [h1] at heq
    simp only [Except.ok.injEq, Prod.mk.injEq] at heq
    rw [← heq.1, ← heq.2, h2]

theorem decode_linestring_go_nil (strict : Bool) (st : DecoderState) (h : st.stream = []) :
    decode_linestring_go strict st = .ok [] := by
  have h1 : next_command 1 st = .ok (false, st) := by
    rw [next_command_false_iff]
    exact ⟨h, rfl⟩
  rw [decode_linestring_go]
  split
  · rename_i e heq
    rw [h1] at heq
    cases heq
  · rfl
  · rename_i st1 heq
    rw [h1] at heq
    simp at heq

theorem decode_linestring_go_cons (strict : Bool) (st st1 st2 : DecoderState)
    (evts rest : List Event)
    (h1 : next_command 1 st = .ok (true, st1)) (h2 : decodeLine strict st1 = .ok (evts, st2))
    (h3 : decode_linestring_go strict st2 = .ok rest) :
    decode_linestring_go strict st = .ok (evts ++ rest) := by
  rw [decode_linestring_go]
  split
  · rename_i e heq
    rw [h1] at heq
    cases heq
  · rename_i st' heq
    rw [h1] at heq
    simp at heq
  · rename_i st1' heq
    rw [h1] at heq
    simp only [Except.ok.injEq, Prod.mk.injEq, true_and] at heq
    rw [← heq]
    split
    · rename_i e heq2
      rw [h2] at heq2
      cases heq2
    · rename_i evts' st2' heq2
      rw [h2] at heq2
      simp only [Except.ok.injEq, Prod.mk.injEq] at heq2
      rw [← heq2.1, ← heq2.2, h3]

theorem decode_linestring_go_line_error (strict : Bool) (st st1 : DecoderState) (e : String)
    (h1 : next_command 1 st = .ok (true, st1)) (h2 : decodeLine strict st1 = .error e) :
    decode_linestring_go strict st = .error e := by
  rw [decode_linestring_go]
  split
  · rename_i e' heq
    rw [h1] at heq
    cases heq
  · rename_i st' heq
    rw [h1] at heq
    simp at heq
  · rename_i st1' heq
    rw [h1] at heq
    simp only [Except.ok.injEq, Prod.mk.injEq, true_and] at heq
    rw [← heq]
    split
    · rename_i e' heq2
      rw [h2] at heq2
      cases heq2
      rfl
    · rename_i evts' st2' heq2
      rw [h2] at heq2
      cases heq2

theorem decode_polygon_go_nil (strict : Bool) (st : DecoderState) (h : st.stream = []) :
    decode_polygon_go strict st = .ok [] := by
  have h1 : next_command 1 st = .ok (false, st) := by
    rw [next_command_false_iff]
    exact ⟨h, rfl⟩
  rw [decode_polygon_go]
  split
  · rename_i e heq
    rw [h1] at heq
    cases heq
  · rfl
  · rename_i st1 heq
    rw [h1] at heq
    simp at heq

theorem decode_polygon_go_cons (strict : Bool) (st st1 st2 : DecoderState)
    (evts rest : List Event)
    (h1 : next_command 1 st = .ok (true, st1)) (h2 : decodeRing strict st1 = .ok (evts, st2))
    (h3 : decode_polygon_go strict st2 = .ok rest) :
    decode_polygon_go strict st = .ok (evts ++ rest) := by
  rw [decode_polygon_go]
  split
  · rename_i e heq
    rw [h1] at heq
    cases heq
  · rename_i st' heq
    rw [h1] at heq
    simp at heq
  · rename_i st1' heq
    rw [h1] at heq
    simp only [Except.ok.injEq, Prod.mk.injEq, true_and] at heq
    rw [← heq]
    split
    · rename_i e heq2
      rw [h2] at heq2
      cases heq2
    · rename_i evts' st2' heq2
      rw [h2] at heq2
      simp only [Except.ok.injEq, Prod.mk.injEq] at heq2
      rw [← heq2.1, ← heq2.2, h3]

theorem decode_polygon_go_ring_error (strict : Bool) (st st1 : DecoderState) (e : String)
    (h1 : next_command 1 st = .ok (true, st1)) (h2 : decodeRing strict st1 = .error e) :
    decode_polygon_go strict st = .error e := by
  rw [decode_polygon_go]
  split
  · rename_i e' heq
    rw [h1] at heq
    cases heq
  · rename_i st' heq
    rw [h1] at heq
    simp at heq
  · rename_i st1' heq
    rw [h1] at heq
    simp only [Except.ok.injEq, Prod.mk.injEq, true_and] at heq
    rw [← heq]
    split
    · rename_i e' heq2
      rw [h2] at heq2
      cases heq2
      rfl
    · rename_i evts' st2' heq2
      rw [h2] at heq2
      cases heq2

/-- C1: for every polygon command stream accepted by
`decode_polygon_geometry` and every ring in it, the decoder accumulates the
signed 64-bit shoelace sum of `det(p_prev, p_next)` over all consecutive
segments including the implicit closing segment back to the start point,
re-emits the start point as the last `ring_point`, and calls `ring_end`
with the boolean `sum > 0` (true exactly for a positive, outer-classified
sum). -/
theorem claim_C1 (s : List Nat) (strict : Bool) (evts : List Event)
    (h : decode_polygon_geometry s strict = .ok evts) :
    ∃ (blocks : List (List Event)), evts = blocks.flatten ∧ ∀ b ∈ blocks, IsRingBlock b := by
  unfold decode_polygon_geometry at h
  exact decode_polygon_go_blocks strict s.length _ le_rfl evts h

/-- Witness for C1 on the concrete strict-mode ring
`MoveTo(1) (0,0); LineTo(2) (1,0) (1,1); ClosePath`, whose shoelace sum is
`1 > 0`. -/
theorem claim_C1_witness :
    decode_polygon_geometry [9, 0, 0, 18, 2, 0, 0, 2, 15] true =
      .ok [Event.ring_begin 4, Event.ring_point ⟨0, 0⟩, Event.ring_point ⟨1, 0⟩,
           Event.ring_point ⟨1, 1⟩, Event.ring_point ⟨0, 0⟩, Event.ring_end true] ∧
    ∃ (blocks : List (List Event)),
      [Event.ring_begin 4, Event.ring_point ⟨0, 0⟩, Event.ring_point ⟨1, 0⟩,
       Event.ring_point ⟨1, 1⟩, Event.ring_point ⟨0, 0⟩, Event.ring_end true] = blocks.flatten ∧
      ∀ b ∈ blocks, IsRingBlock b := by
  have np1 : next_point true ⟨[2, 0, 0, 2, 15], ⟨0, 0⟩, 2, 2⟩ =
      .ok (⟨1, 0⟩, ⟨[0, 2, 15], ⟨1, 0⟩, 2, 1⟩) := rfl
  have np2 : next_point true ⟨[0, 2, 15], ⟨1, 0⟩, 2, 1⟩ =
      .ok (⟨1, 1⟩, ⟨[15], ⟨1, 1⟩, 2, 0⟩) := rfl
  have rl2 : ringLoop true ⟨1, 1⟩ 1 ⟨[15], ⟨1, 1⟩, 2, 0⟩ =
      .ok ([], ⟨1, 1⟩, 1, ⟨[15], ⟨1, 1⟩, 2, 0⟩) := ringLoop_zero _ _ _ _ rfl
  have rl1 : ringLoop true ⟨1, 0⟩ 0 ⟨[0, 2, 15], ⟨1, 0⟩, 2, 1⟩ =
      .ok ([⟨1, 1⟩], ⟨1, 1⟩, 1, ⟨[15], ⟨1, 1⟩, 2, 0⟩) := by
    apply ringLoop_cons _ _ _ _ _ _ _ _ _ _ (by decide) np2
    rw [show (0 : Int) + det ⟨1, 0⟩ ⟨1, 1⟩ = 1 by norm_num [det]]
    exact rl2
  have rl0 : ringLoop true ⟨0, 0⟩ 0 ⟨[2, 0, 0, 2, 15], ⟨0, 0⟩, 2, 2⟩ =
      .ok ([⟨1, 0⟩, ⟨1, 1⟩], ⟨1, 1⟩, 1, ⟨[15], ⟨1, 1⟩, 2, 0⟩) := by
    apply ringLoop_cons _ _ _ _ _ _ _ _ _ _ (by decide) np1
    rw [show (0 : Int) + det ⟨0, 0⟩ ⟨1, 0⟩ = 0 by norm_num [det]]
    exact rl1
  have hdr : decodeRing true ⟨[0, 0, 18, 2, 0, 0, 2, 15], ⟨0, 0⟩, 1, 1⟩ =
      .ok ([Event.ring_begin 4, Event.ring_point ⟨0, 0⟩, Event.ring_point ⟨1, 0⟩,
            Event.ring_point ⟨1, 1⟩, Event.ring_point ⟨0, 0⟩, Event.ring_end true],
           ⟨[], ⟨1, 1⟩, 7, 0⟩) := by
    rw [decodeRing]
    simp only [show next_point true ⟨[0, 0, 18, 2, 0, 0, 2, 15], ⟨0, 0⟩, 1, 1⟩ =
        .ok (⟨0, 0⟩, ⟨[18, 2, 0, 0, 2, 15], ⟨0, 0⟩, 1, 0⟩) from rfl,
      show next_command 2 ⟨[18, 2, 0, 0, 2, 15], ⟨0, 0⟩, 1, 0⟩ =
        .ok (true, ⟨[2, 0, 0, 2, 15], ⟨0, 0⟩, 2, 2⟩) from rfl,
      rl0,
      show next_command 7 ⟨[15], ⟨1, 1⟩, 2, 0⟩ = .ok (true, ⟨[], ⟨1, 1⟩, 7, 0⟩) from rfl]
    norm_num [det]
  have hgo : decode_polygon_go true ⟨[9, 0, 0, 18, 2, 0, 0, 2, 15], ⟨0, 0⟩, 0, 0⟩ =
      .ok ([Event.ring_begin 4, Event.ring_point ⟨0, 0⟩, Event.ring_point ⟨1, 0⟩,
            Event.ring_point ⟨1, 1⟩, Event.ring_point ⟨0, 0⟩, Event.ring_end true] ++ []) :=
    decode_polygon_go_cons true _ _ _ _ _ rfl hdr (decode_polygon_go_nil true _ rfl)
  have hev : decode_polygon_geometry [9, 0, 0, 18, 2, 0, 0, 2, 15] true =
      .ok [Event.ring_begin 4, Event.ring_point ⟨0, 0⟩, Event.ring_point ⟨1, 0⟩,
           Event.ring_point ⟨1, 1⟩, Event.ring_point ⟨0, 0⟩, Event.ring_end true] := by
    unfold decode_polygon_geometry
    rw [hgo]
    simp
  exact ⟨hev, claim_C1 _ _ _ hev⟩

/-- C2 counterexample: the ring `MoveTo(1) (0,0); LineTo(0); ClosePath`
has a LineTo count of 0, yet in non-strict mode `decode_polygon_geometry`
accepts it (the claim asserts it must raise a GeometryError even in
non-strict mode). -/
theorem claim_C2_counterexample :
    decode_polygon_geometry [9, 0, 0, 2, 15] false =
      .ok [Event.ring_begin 2, Event.ring_point ⟨0, 0⟩, Event.ring_point ⟨0, 0⟩,
           Event.ring_end false] := by
  have hdr : decodeRing false ⟨[0, 0, 2, 15], ⟨0, 0⟩, 1, 1⟩ =
      .ok ([Event.ring_begin 2, Event.ring_point ⟨0, 0⟩, Event.ring_point ⟨0, 0⟩,
            Event.ring_end false], ⟨[], ⟨0, 0⟩, 7, 0⟩) := by
    rw [decodeRing]
    simp only [show next_point false ⟨[0, 0, 2, 15], ⟨0, 0⟩, 1, 1⟩ =
        .ok (⟨0, 0⟩, ⟨[2, 15], ⟨0, 0⟩, 1, 0⟩) from rfl,
      show next_command 2 ⟨[2, 15], ⟨0, 0⟩, 1, 0⟩ =
        .ok (true, ⟨[15], ⟨0, 0⟩, 2, 0⟩) from rfl,
      ringLoop_zero false ⟨0, 0⟩ 0 ⟨[15], ⟨0, 0⟩, 2, 0⟩ rfl,
      show next_command 7 ⟨[15], ⟨0, 0⟩, 2, 0⟩ = .ok (true, ⟨[], ⟨0, 0⟩, 7, 0⟩) from rfl]
    norm_num [det]
  have hgo : decode_polygon_go false ⟨[9, 0, 0, 2, 15], ⟨0, 0⟩, 0, 0⟩ =
      .ok ([Event.ring_begin 2, Event.ring_point ⟨0, 0⟩, Event.ring_point ⟨0, 0⟩,
            Event.ring_end false] ++ []) :=
    decode_polygon_go_cons false _ _ _ _ _ rfl hdr (decode_polygon_go_nil false _ rfl)
  unfold decode_polygon_geometry
  rw [hgo]
  simp

/-- C2 amended: a polygon ring's LineTo command count must be greater
than 1 in strict mode (count 0 or 1 raises a GeometryError there), while
non-strict mode enforces no lower bound at all: a ring whose LineTo count
is 0 decodes successfully when the rest of the stream is well-formed. -/
theorem claim_C2_amended :
    (∀ (x y n : Nat) (rest : List Nat), n ≤ 1 →
      decode_polygon_geometry (9 :: x :: y :: (2 + 8 * n) :: rest) true =
        .error "LineTo command count is not greater than 1 (spec 4.3.4.4)") ∧
    (∀ (x y : Nat),
      decode_polygon_geometry [9, x, y, 2, 15] false =
        .ok [Event.ring_begin 2,
             Event.ring_point ⟨decode_zigzag32 x, decode_zigzag32 y⟩,
             Event.ring_point ⟨decode_zigzag32 x, decode_zigzag32 y⟩,
             Event.ring_end false]) := by
  constructor
  · intro x y n rest hn
    have hnp : next_point true ⟨x :: y :: (2 + 8 * n) :: rest, ⟨0, 0⟩, 1, 1⟩ =
        .ok (⟨decode_zigzag32 x, decode_zigzag32 y⟩,
             ⟨(2 + 8 * n) :: rest, ⟨decode_zigzag32 x, decode_zigzag32 y⟩, 1, 0⟩) := by
      simp [next_point]
    have hnc2 : next_command 2 ⟨(2 + 8 * n) :: rest,
        ⟨decode_zigzag32 x, decode_zigzag32 y⟩, 1, 0⟩ =
        .ok (true, ⟨rest, ⟨decode_zigzag32 x, decode_zigzag32 y⟩, 2, n⟩) := by
      rw [next_command_true_ne7 2 (by decide)]
      refine ⟨2 + 8 * n, rest, rfl, by omega, ?_⟩
      simp only [DecoderState.mk.injEq, true_and]
      omega
    have hdr : decodeRing true ⟨x :: y :: (2 + 8 * n) :: rest, ⟨0, 0⟩, 1, 1⟩ =
        .error "LineTo command count is not greater than 1 (spec 4.3.4.4)" := by
      rw [decodeRing]
      simp only [hnp, hnc2]
      rw [if_neg (by norm_num)]
      rw [if_pos ⟨trivial, by simpa using hn⟩]
    unfold decode_polygon_geometry
    exact decode_polygon_go_ring_error true _ _ _ rfl hdr
  · intro x y
    have hnp : next_point false ⟨x :: y :: 2 :: 15 :: [], ⟨0, 0⟩, 1, 1⟩ =
        .ok (⟨decode_zigzag32 x, decode_zigzag32 y⟩,
             ⟨[2, 15], ⟨decode_zigzag32 x, decode_zigzag32 y⟩, 1, 0⟩) := by
      simp [next_point]
    have hdr : decodeRing false ⟨x :: y :: 2 :: 15 :: [], ⟨0, 0⟩, 1, 1⟩ =
        .ok ([Event.ring_begin 2,
              Event.ring_point ⟨decode_zigzag32 x, decode_zigzag32 y⟩,
              Event.ring_point ⟨decode_zigzag32 x, decode_zigzag32 y⟩,
              Event.ring_end false],
             ⟨[], ⟨decode_zigzag32 x, decode_zigzag32 y⟩, 7, 0⟩) := by
      rw [decodeRing]
      simp only [hnp,
        show next_command 2 ⟨[2, 15], ⟨decode_zigzag32 x, decode_zigzag32 y⟩, 1, 0⟩ =
          .ok (true, ⟨[15], ⟨decode_zigzag32 x, decode_zigzag32 y⟩, 2, 0⟩) from rfl,
        ringLoop_zero false ⟨decode_zigzag32 x, decode_zigzag32 y⟩ 0
          ⟨[15], ⟨decode_zigzag32 x, decode_zigzag32 y⟩, 2, 0⟩ rfl,
        show next_command 7 ⟨[15], ⟨decode_zigzag32 x, decode_zigzag32 y⟩, 2, 0⟩ =
          .ok (true, ⟨[], ⟨decode_zigzag32 x, decode_zigzag32 y⟩, 7, 0⟩) from rfl]
      norm_num [det]
    have hgo : decode_polygon_go false ⟨[9, x, y, 2, 15], ⟨0, 0⟩, 0, 0⟩ =
        .ok ([Event.ring_begin 2,
              Event.ring_point ⟨decode_zigzag32 x, decode_zigzag32 y⟩,
              Event.ring_point ⟨decode_zigzag32 x, decode_zigzag32 y⟩,
              Event.ring_end false] ++ []) :=
      decode_polygon_go_cons false _ _ _ _ _ rfl hdr (decode_polygon_go_nil false _ rfl)
    unfold decode_polygon_geometry
    rw [hgo]
    simp

/-- Witness for the amended C2 at the concrete input `x = y = 0`, `n = 1`:
a strict-mode ring with LineTo count 1 is rejected. -/
theorem claim_C2_witness :
    decode_polygon_geometry [9, 0, 0, 10] true =
      .error "LineTo command count is not greater than 1 (spec 4.3.4.4)" := by
  have h := claim_C2_amended.1 0 0 1 [] (by decide)
  simpa using h

/-- C4: whenever the decoder reads a command integer whose id is ClosePath
(7) and whose count is not exactly 1, it raises a GeometryError; the check
sits in `next_command` before the strict flag is ever consulted, so it
applies in both modes, as the concrete polygon run (quantified over the
mode) illustrates. -/
theorem claim_C4 :
    (∀ (st : DecoderState) (expected w : Nat) (rest : List Nat),
      st.stream = w :: rest → w % 8 = 7 → w / 8 ≠ 1 →
      next_command expected st = .error "ClosePath command count is not 1") ∧
    (∀ (strict : Bool),
      decode_polygon_geometry [9, 0, 0, 26, 2, 0, 2, 0, 2, 0, 23] strict =
        .error "ClosePath command count is not 1") := by
  constructor
  · intro st expected w rest hs h7 hcnt
    unfold next_command
    rw [hs]
    dsimp only
    rw [if_pos ⟨by simpa [get_command_id] using h7, by simpa [get_command_count] using hcnt⟩]
  · intro strict
    have np0 : next_point strict ⟨[0, 0, 26, 2, 0, 2, 0, 2, 0, 23], ⟨0, 0⟩, 1, 1⟩ =
        .ok (⟨0, 0⟩, ⟨[26, 2, 0, 2, 0, 2, 0, 23], ⟨0, 0⟩, 1, 0⟩) := by
      simp [next_point, decode_zigzag32]
    have np1 : next_point strict ⟨[2, 0, 2, 0, 2, 0, 23], ⟨0, 0⟩, 2, 3⟩ =
        .ok (⟨1, 0⟩, ⟨[2, 0, 2, 0, 23], ⟨1, 0⟩, 2, 2⟩) := by
      norm_num [next_point, decode_zigzag32]
    have np2 : next_point strict ⟨[2, 0, 2, 0, 23], ⟨1, 0⟩, 2, 2⟩ =
        .ok (⟨2, 0⟩, ⟨[2, 0, 23], ⟨2, 0⟩, 2, 1⟩) := by
      norm_num [next_point, decode_zigzag32]
    have np3 : next_point strict ⟨[2, 0, 23], ⟨2, 0⟩, 2, 1⟩ =
        .ok (⟨3, 0⟩, ⟨[23], ⟨3, 0⟩, 2, 0⟩) := by
      norm_num [next_point, decode_zigzag32]
    have rl2 : ringLoop strict ⟨2, 0⟩ 0 ⟨[2, 0, 23], ⟨2, 0⟩, 2, 1⟩ =
        .ok ([⟨3, 0⟩], ⟨3, 0⟩, 0, ⟨[23], ⟨3, 0⟩, 2, 0⟩) := by
      apply ringLoop_cons _ _ _ _ _ _ _ _ _ _ (by decide) np3
      rw [show (0 : Int) + det ⟨2, 0⟩ ⟨3, 0⟩ = 0 by norm_num [det]]
      exact ringLoop_zero _ _ _ _ rfl
    have rl1 : ringLoop strict ⟨1, 0⟩ 0 ⟨[2, 0, 2, 0, 23], ⟨1, 0⟩, 2, 2⟩ =
        .ok ([⟨2, 0⟩, ⟨3, 0⟩], ⟨3, 0⟩, 0, ⟨[23], ⟨3, 0⟩, 2, 0⟩) := by
      apply ringLoop_cons _ _ _ _ _ _ _ _ _ _ (by decide) np2
      rw [show (0 : Int) + det ⟨1, 0⟩ ⟨2, 0⟩ = 0 by norm_num [det]]
      exact rl2
    have rl0 : ringLoop strict ⟨0, 0⟩ 0 ⟨[2, 0, 2, 0, 2, 0, 23], ⟨0, 0⟩, 2, 3⟩ =
        .ok ([⟨1, 0⟩, ⟨2, 0⟩, ⟨3, 0⟩], ⟨3, 0⟩, 0, ⟨[23], ⟨3, 0⟩, 2, 0⟩) := by
      apply ringLoop_cons _ _ _ _ _ _ _ _ _ _ (by decide) np1
      rw [show (0 : Int) + det ⟨0, 0⟩ ⟨1, 0⟩ = 0 by norm_num [det]]
      exact rl1
    have hdr : decodeRing strict ⟨[0, 0, 26, 2, 0, 2, 0, 2, 0, 23], ⟨0, 0⟩, 1, 1⟩ =
        .error "ClosePath command count is not 1" := by
      rw [decodeRing]
      simp only [np0,
        show next_command 2 ⟨[26, 2, 0, 2, 0, 2, 0, 23], ⟨0, 0⟩, 1, 0⟩ =
          .ok (true, ⟨[2, 0, 2, 0, 2, 0, 23], ⟨0, 0⟩, 2, 3⟩) from rfl,
        rl0,
        show next_command 7 ⟨[23], ⟨3, 0⟩, 2, 0⟩ =
          .error "ClosePath command count is not 1" from rfl]
      norm_num
    unfold decode_polygon_geometry
    exact decode_polygon_go_ring_error strict _ _ _ rfl hdr

/-- Witness for C4 at the concrete state whose stream starts with the
command integer 23 (ClosePath with count 2). -/
theorem claim_C4_witness :
    next_command 1 ⟨[23], ⟨0, 0⟩, 0, 0⟩ = .error "ClosePath command count is not 1" :=
  claim_C4.1 ⟨[23], ⟨0, 0⟩, 0, 0⟩ 1 23 [] rfl (by decide) (by decide)

/-- The running cursor written from the specification: the points obtained
by pairing the parameter integers, zigzag-decoding each pair and summing
the deltas from the given start cursor. -/
def cumPts (c : Pt) : List Nat → List Pt
  | w1 :: w2 :: rest =>
    let c' : Pt := ⟨c.x + decode_zigzag32 w1, c.y + decode_zigzag32 w2⟩
    c' :: cumPts c' rest
  | _ => []

theorem getLastD_cons_getD {α : Type} (l : List α) :
    ∀ (a d : α), (a :: l).getLast?.getD d = l.getLast?.getD a := by
  induction l with
  | nil =>
    intro a d
    rfl
  | cons b t ih =>
    intro a d
    rw [List.getLast?_cons_cons]
    rw [ih b d, ih b a]

theorem readPoints_char (strict : Bool) :
    ∀ (n : Nat) (st : DecoderState), st.count = n → st.command_id ≠ 2 →
      readPoints strict st =
        if 2 * n ≤ st.stream.length then
          .ok (cumPts st.cursor (st.stream.take (2 * n)),
               ⟨st.stream.drop (2 * n),
                (cumPts st.cursor (st.stream.take (2 * n))).getLastD st.cursor,
                st.command_id, 0⟩)
        else .error "too few points in geometry" := by
  intro n
  induction n with
  | zero =>
    intro st hc hcid
    obtain ⟨stream, cursor, cid, cnt⟩ := st
    simp only [DecoderState.count] at hc
    subst hc
    rw [readPoints_zero strict _ rfl]
    simp [cumPts]
  | succ n ih =>
    intro st hc hcid
    rw [readPoints, dif_neg (by rw [hc]; exact Nat.succ_ne_zero n)]
    rcases hs : st.stream with _ | ⟨w1, t⟩
    · have hnp : next_point strict st = .error "too few points in geometry" := by
        unfold next_point
        rw [hs]
      split
      · rename_i e heq
        rw [hnp] at heq
        cases heq
        rw [if_neg (by simp only [List.length_nil]; omega)]
      · rename_i p st1 heq
        rw [hnp] at heq
        cases heq
    · rcases t with _ | ⟨w2, rest⟩
      · have hnp : next_point strict st = .error "too few points in geometry" := by
          unfold next_point
          rw [hs]
        split
        · rename_i e heq
          rw [hnp] at heq
          cases heq
          rw [if_neg (by simp only [List.length_cons, List.length_nil]; omega)]
        · rename_i p st1 heq
          rw [hnp] at heq
          cases heq
      · have hnp : next_point strict st =
            .ok (⟨st.cursor.x + decode_zigzag32 w1, st.cursor.y + decode_zigzag32 w2⟩,
                 ⟨rest, ⟨st.cursor.x + decode_zigzag32 w1, st.cursor.y + decode_zigzag32 w2⟩,
                  st.command_id, st.count - 1⟩) := by
          rw [next_point_ok_iff]
          exact ⟨w1, w2, rest, hs, by simp [hcid], rfl, rfl⟩
        split
        · rename_i e heq
          rw [hnp] at heq
          cases heq
        · rename_i p st1 heq
          rw [hnp] at heq
          simp only [Except.ok.injEq, Prod.mk.injEq] at heq
          obtain ⟨hp, hst1⟩ := heq
          subst hp
          subst hst1
          rw [ih _ (by simp only [DecoderState.count]; omega) (by simpa using hcid)]
          simp only [DecoderState.stream, DecoderState.cursor, DecoderState.command_id]
          by_cases hle : 2 * n ≤ rest.length
          · rw [if_pos hle, if_pos (by simp only [List.length_cons]; omega)]
            rw [show 2 * (n + 1) = 2 * n + 1 + 1 by ring]
            simp only [List.take_succ_cons, List.drop_succ_cons]
            simp [cumPts]
            rw [getLastD_cons_getD]
          · rw [if_neg hle, if_neg (by simp only [List.length_cons]; omega)]

/-- C7: `decode_point_geometry` succeeds exactly on a single MoveTo
command with count at least 1 followed by exactly `count` zigzag-encoded
parameter pairs and nothing else, emitting `points_begin(count)`, one
`points_point` per pair at the running cursor (the sum of the
zigzag-decoded deltas so far from `(0,0)`), and `points_end`; every
deviation (missing MoveTo, zero count, too few parameter integers,
trailing data) yields a GeometryError, the only error kind of the decoder
result type. -/
theorem claim_C7 (s : List Nat) (strict : Bool) (evts : List Event) :
    decode_point_geometry s strict = .ok evts ↔
      ∃ (w : Nat) (params : List Nat), s = w :: params ∧ w % 8 = 1 ∧ 1 ≤ w / 8 ∧
        params.length = 2 * (w / 8) ∧
        evts = Event.points_begin (w / 8) ::
          (cumPts ⟨0, 0⟩ params).map Event.points_point ++ [Event.points_end] := by
  constructor
  · intro h
    unfold decode_point_geometry at h
    split at h
    · cases h
    · cases h
    · rename_i st1 heq
      rw [next_command_true_ne7 1 (by decide)] at heq
      obtain ⟨w, rest, hs, hw, hst1⟩ := heq
      simp only at hs
      split at h
      · cases h
      · rename_i hcnt
        split at h
        · cases h
        · rename_i pts st2 hrp
          rw [readPoints_char strict st1.count st1 rfl (by simp [hst1])] at hrp
          split at hrp
          · rename_i hle
            simp only [Except.ok.injEq, Prod.mk.injEq] at hrp
            obtain ⟨hpts, hst2⟩ := hrp
            split at h
            · cases h
            · rename_i hdone
              simp only [ne_eq, Decidable.not_not] at hdone
              simp only [Except.ok.injEq] at h
              rw [← hst2] at hdone
              simp only [DecoderState.stream] at hdone
              have hlen : st1.stream.length = 2 * st1.count := by
                have := List.drop_eq_nil_iff.mp hdone
                omega
              have htake : st1.stream.take (2 * st1.count) = st1.stream := by
                apply List.take_of_length_le
                omega
              refine ⟨w, rest, hs, hw, ?_, ?_, ?_⟩
              · have : st1.count = w / 8 := by simp [hst1]
                rw [← this]
                omega
              · have hc : st1.count = w / 8 := by simp [hst1]
                have hsr : st1.stream = rest := by simp [hst1]
                rw [← hc, ← hsr]
                omega
              · rw [← h, ← hpts, htake]
                have hc : st1.count = w / 8 := by simp [hst1]
                have hsr : st1.stream = rest := by simp [hst1]
                have hcur : st1.cursor = ⟨0, 0⟩ := by simp [hst1]
                rw [← hc, ← hsr, hcur]
          · cases hrp
  · rintro ⟨w, params, rfl, hw, hcnt, hlen, rfl⟩
    have h1 : next_command 1 ⟨w :: params, ⟨0, 0⟩, 0, 0⟩ =
        .ok (true, ⟨params, ⟨0, 0⟩, 1, w / 8⟩) := by
      rw [next_command_true_ne7 1 (by decide)]
      exact ⟨w, params, rfl, hw, rfl⟩
    unfold decode_point_geometry
    rw [h1]
    dsimp only
    rw [if_neg (by simpa using Nat.one_le_iff_ne_zero.mp hcnt)]
    rw [readPoints_char strict (w / 8) ⟨params, ⟨0, 0⟩, 1, w / 8⟩ rfl (by simp)]
    rw [if_pos (by simp [hlen])]
    simp only [DecoderState.stream, DecoderState.cursor, DecoderState.command_id]
    rw [show (2 * (w / 8)) = params.length by omega]
    rw [List.take_length, List.drop_length]
    simp

/-- Do two adjacent events form a pair of equal linestring points? -/
def pairDup (a b : Event) : Bool :=
  match a, b with
  | Event.linestring_point p, Event.linestring_point q => decide (p = q)
  | _, _ => false

/-- Does the event list contain two adjacent equal linestring points? -/
def hasDupPoint : List Event → Bool
  | [] => false
  | e1 :: rest =>
    (match rest with
     | e2 :: _ => pairDup e1 e2
     | [] => false) || hasDupPoint rest

/-- Does the point list, read after the given previous point, contain two
consecutive equal points? -/
def hasAdjDup (prev : Pt) : List Pt → Bool
  | [] => false
  | p :: ps => if prev = p then true else hasAdjDup p ps

theorem hasDupPoint_end_cons (rest : List Event) :
    hasDupPoint (Event.linestring_end :: rest) = hasDupPoint rest := by
  cases rest with
  | nil => rfl
  | cons e t => cases e <;> simp [hasDupPoint, pairDup]

theorem hasDupPoint_points (pts : List Pt) :
    ∀ (first : Pt) (rest : List Event),
      hasDupPoint (Event.linestring_point first ::
          (pts.map Event.linestring_point ++ Event.linestring_end :: rest)) =
        (hasAdjDup first pts || hasDupPoint rest) := by
  induction pts with
  | nil =>
    intro first rest
    simp only [List.map_nil, List.nil_append]
    rw [show hasDupPoint (Event.linestring_point first :: Event.linestring_end :: rest) =
        (pairDup (Event.linestring_point first) Event.linestring_end ||
         hasDupPoint (Event.linestring_end :: rest)) from rfl]
    rw [hasDupPoint_end_cons]
    simp [pairDup, hasAdjDup]
  | cons q t ih =>
    intro first rest
    simp only [List.map_cons, List.cons_append]
    rw [show hasDupPoint (Event.linestring_point first :: Event.linestring_point q ::
          (t.map Event.linestring_point ++ Event.linestring_end :: rest)) =
        (pairDup (Event.linestring_point first) (Event.linestring_point q) ||
          hasDupPoint (Event.linestring_point q ::
            (t.map Event.linestring_point ++ Event.linestring_end :: rest))) from rfl]
    rw [ih q rest]
    simp only [pairDup, hasAdjDup]
    by_cases hq : first = q
    · simp [hq]
    · simp [hq]

theorem hasDupPoint_block (k : Nat) (first : Pt) (pts : List Pt) (rest : List Event) :
    hasDupPoint (Event.linestring_begin k :: Event.linestring_point first ::
        (pts.map Event.linestring_point ++ Event.linestring_end :: rest)) =
      (hasAdjDup first pts || hasDupPoint rest) := by
  rw [show hasDupPoint (Event.linestring_begin k :: Event.linestring_point first ::
        (pts.map Event.linestring_point ++ Event.linestring_end :: rest)) =
      (pairDup (Event.linestring_begin k) (Event.linestring_point first) ||
        hasDupPoint (Event.linestring_point first ::
          (pts.map Event.linestring_point ++ Event.linestring_end :: rest))) from rfl]
  rw [hasDupPoint_points pts first rest]
  simp [pairDup]

theorem readPoints_cons_error (strict : Bool) (st st' : DecoderState) (p : Pt) (e : String)
    (h0 : st.count ≠ 0) (h1 : next_point strict st = .ok (p, st'))
    (h2 : readPoints strict st' = .error e) :
    readPoints strict st = .error e := by
  rw [readPoints, dif_neg h0]
  split
  · rename_i e' heq
    rw [h1] at heq
    cases heq
  · rename_i p' st1 heq
    rw [h1] at heq
    simp only [Except.ok.injEq, Prod.mk.injEq] at heq
    rw [← heq.2, h2]

theorem readPoints_error_head (strict : Bool) (st : DecoderState) (e : String)
    (h0 : st.count ≠ 0) (h1 : next_point strict st = .error e) :
    readPoints strict st = .error e := by
  rw [readPoints, dif_neg h0]
  split
  · rename_i e' heq
    rw [h1] at heq
    cases heq
    rfl
  · rename_i p' st1 heq
    rw [h1] at heq
    cases heq

theorem readPoints_strict_vs (strict0 : Bool) :
    ∀ (n : Nat) (st : DecoderState), st.count = n → st.command_id = 2 →
      ∀ (ps : List Pt) (st' : DecoderState), readPoints false st = .ok (ps, st') →
        (hasAdjDup st.cursor ps = false → readPoints true st = .ok (ps, st')) ∧
        (hasAdjDup st.cursor ps = true →
          readPoints true st = .error "found consecutive equal points (spec 4.3.3.2) (strict mode)") := by
  intro n
  induction n with
  | zero =>
    intro st hc hcid ps st' hok
    rw [readPoints_zero false st (by omega)] at hok
    simp only [Except.ok.injEq, Prod.mk.injEq] at hok
    obtain ⟨hps, hst⟩ := hok
    subst hps
    subst hst
    constructor
    · intro _
      exact readPoints_zero true st (by omega)
    · intro habs
      simp [hasAdjDup] at habs
  | succ n ih =>
    intro st hc hcid ps st' hok
    have h0 : st.count ≠ 0 := by omega
    rw [readPoints, dif_neg h0] at hok
    split at hok
    · cases hok
    · rename_i p st1 heq
      split at hok
      · cases hok
      · rename_i ps1 st2 hrec
        simp only [Except.ok.injEq, Prod.mk.injEq] at hok
        obtain ⟨hps, hst'⟩ := hok
        subst hps
        subst hst'
        rw [next_point_ok_iff] at heq
        obtain ⟨w1, w2, rest, hs, -, hp, hst1⟩ := heq
        by_cases hz : decode_zigzag32 w1 = 0 ∧ decode_zigzag32 w2 = 0
        · have hpc : p = st.cursor := by
            rw [hp, hz.1, hz.2]
            simp
          have hnp : next_point true st =
              .error "found consecutive equal points (spec 4.3.3.2) (strict mode)" := by
            unfold next_point
            rw [hs]
            dsimp only
            rw [if_pos ⟨rfl, hcid, hz.1, hz.2⟩]
          have herr := readPoints_error_head true st _ h0 hnp
          constructor
          · intro habs
            rw [hpc] at habs
            simp [hasAdjDup] at habs
          · intro _
            exact herr
        · have hnp : next_point true st = .ok (p, st1) := by
            rw [next_point_ok_iff]
            refine ⟨w1, w2, rest, hs, ?_, hp, hst1⟩
            intro hcon
            exact hz ⟨hcon.2.2.1, hcon.2.2.2⟩
          have hpc : p ≠ st.cursor := by
            rw [hp]
            intro hcon
            apply hz
            have hx := congrArg Pt.x hcon
            have hy := congrArg Pt.y hcon
            simp at hx hy
            exact ⟨hx, hy⟩
          have hcur1 : st1.cursor = p := by rw [hst1]
          have ihspec := ih st1 (by rw [hst1]; simp; omega) (by rw [hst1]; simpa using hcid)
            ps1 st2 hrec
          rw [hcur1] at ihspec
          have hadj : hasAdjDup st.cursor (p :: ps1) = hasAdjDup p ps1 := by
            simp only [hasAdjDup]
            rw [if_neg (fun hcon => hpc hcon.symm)]
          constructor
          · intro hfalse
            rw [hadj] at hfalse
            exact readPoints_cons true st st1 st2 p ps1 h0 hnp (ihspec.1 hfalse)
          · intro htrue
            rw [hadj] at htrue
            exact readPoints_cons_error true st st1 p _ h0 hnp (ihspec.2 htrue)

theorem decode_linestring_go_rec_error (strict : Bool) (st st1 st2 : DecoderState)
    (evts : List Event) (e : String)
    (h1 : next_command 1 st = .ok (true, st1)) (h2 : decodeLine strict st1 = .ok (evts, st2))
    (h3 : decode_linestring_go strict st2 = .error e) :
    decode_linestring_go strict st = .error e := by
  rw [decode_linestring_go]
  split
  · rename_i e' heq
    rw [h1] at heq
    cases heq
  · rename_i st' heq
    rw [h1] at heq
    simp at heq
  · rename_i st1' heq
    rw [h1] at heq
    simp only [Except.ok.injEq, Prod.mk.injEq, true_and] at heq
    rw [← heq]
    split
    · rename_i e' heq2
      rw [h2] at heq2
      cases heq2
    · rename_i evts' st2' heq2
      rw [h2] at heq2
      simp only [Except.ok.injEq, Prod.mk.injEq] at heq2
      rw [← heq2.2, h3]

theorem hasDupPoint_block_nil (k : Nat) (first : Pt) (pts : List Pt) :
    hasDupPoint (Event.linestring_begin k :: Event.linestring_point first ::
        pts.map Event.linestring_point ++ [Event.linestring_end]) = hasAdjDup first pts := by
  have h := hasDupPoint_block k first pts []
  simp only [hasDupPoint, Bool.or_false] at h
  simpa only [List.cons_append] using h

theorem hasDupPoint_block_append (k : Nat) (first : Pt) (pts : List Pt) (rest : List Event) :
    hasDupPoint ((Event.linestring_begin k :: Event.linestring_point first ::
        pts.map Event.linestring_point ++ [Event.linestring_end]) ++ rest) =
      (hasAdjDup first pts || hasDupPoint rest) := by
  have h := hasDupPoint_block k first pts rest
  simpa only [List.cons_append, List.append_assoc, List.singleton_append] using h

theorem decodeLine_strict_vs (st1 : DecoderState) (hcid : st1.command_id ≠ 2)
    (evts : List Event) (st4 : DecoderState) (hok : decodeLine false st1 = .ok (evts, st4)) :
    (∃ (k : Nat) (first : Pt) (pts : List Pt),
      evts = Event.linestring_begin k :: Event.linestring_point first ::
        pts.map Event.linestring_point ++ [Event.linestring_end]) ∧
    (hasDupPoint evts = false → decodeLine true st1 = .ok (evts, st4)) ∧
    (hasDupPoint evts = true →
      decodeLine true st1 = .error "found consecutive equal points (spec 4.3.3.2) (strict mode)") := by
  unfold decodeLine at hok
  split at hok
  · cases hok
  · rename_i hc1
    split at hok
    · cases hok
    · rename_i first st2 hnp0
      rw [next_point_ok_iff] at hnp0
      obtain ⟨w1, w2, rest, hs, -, hp, hst2⟩ := hnp0
      have hnpT : next_point true st1 = .ok (first, st2) := by
        rw [next_point_ok_iff]
        exact ⟨w1, w2, rest, hs, fun hcon => hcid hcon.2.1, hp, hst2⟩
      have hnp0 : next_point false st1 = .ok (first, st2) := by
        rw [next_point_ok_iff]
        exact ⟨w1, w2, rest, hs, by simp, hp, hst2⟩
      split at hok
      · cases hok
      · cases hok
      · rename_i st3 hnc
        split at hok
        · cases hok
        · rename_i hc0
          split at hok
          · cases hok
          · rename_i pts st4' hrp
            simp only [Except.ok.injEq, Prod.mk.injEq] at hok
            obtain ⟨hevts, hst4⟩ := hok
            subst hst4
            have hst3 := hnc
            rw [next_command_true_ne7 2 (by decide)] at hst3
            obtain ⟨w, rest', hs2, hw2, hst3⟩ := hst3
            have hcid3 : st3.command_id = 2 := by rw [hst3]
            have hcur3 : st3.cursor = first := by
              rw [hst3]
              simp only [DecoderState.cursor]
              rw [hst2]
            have ihspec := readPoints_strict_vs false st3.count st3 rfl hcid3 pts st4' hrp
            rw [hcur3] at ihspec
            have hdup : hasDupPoint evts = hasAdjDup first pts := by
              rw [← hevts]
              exact hasDupPoint_block_nil (st3.count + 1) first pts
            refine ⟨⟨st3.count + 1, first, pts, hevts.symm⟩, ?_, ?_⟩
            · intro hfalse
              rw [hdup] at hfalse
              unfold decodeLine
              rw [if_neg hc1]
              simp only [hnpT, hnc]
              rw [if_neg hc0]
              simp only [ihspec.1 hfalse]
              rw [hevts]
            · intro htrue
              rw [hdup] at htrue
              unfold decodeLine
              rw [if_neg hc1]
              simp only [hnpT, hnc]
              rw [if_neg hc0]
              simp only [ihspec.2 htrue]

theorem decode_linestring_go_strict_vs :
    ∀ (n : Nat) (st : DecoderState), st.stream.length ≤ n →
      ∀ (evts : List Event), decode_linestring_go false st = .ok evts →
        (hasDupPoint evts = false → decode_linestring_go true st = .ok evts) ∧
        (hasDupPoint evts = true →
          decode_linestring_go true st =
            .error "found consecutive equal points (spec 4.3.3.2) (strict mode)") := by
  intro n
  induction n with
  | zero =>
    intro st hle evts hok
    have hnil : st.stream = [] := List.length_eq_zero.mp (by omega)
    rw [decode_linestring_go_nil false st hnil] at hok
    simp only [Except.ok.injEq] at hok
    subst hok
    constructor
    · intro _
      exact decode_linestring_go_nil true st hnil
    · intro habs
      simp [hasDupPoint] at habs
  | succ n ih =>
    intro st hle evts hok
    rw [decode_linestring_go] at hok
    split at hok
    · cases hok
    · rename_i st' heq
      simp only [Except.ok.injEq] at hok
      subst hok
      rw [next_command_false_iff] at heq
      constructor
      · intro _
        exact decode_linestring_go_nil true st heq.1
      · intro habs
        simp [hasDupPoint] at habs
    · rename_i st1 heq
      split at hok
      · cases hok
      · rename_i evts1 st2 hdl
        split at hok
        · cases hok
        · rename_i rest' hrec
          simp only [Except.ok.injEq] at hok
          subst hok
          have hst1 := heq
          rw [next_command_true_ne7 1 (by decide)] at hst1
          obtain ⟨w, rest0, hs, hw, hst1⟩ := hst1
          have hcid1 : st1.command_id ≠ 2 := by
            rw [hst1]
            simp
          obtain ⟨⟨k, first, pts, hshape⟩, hok1, herr1⟩ :=
            decodeLine_strict_vs st1 hcid1 evts1 st2 hdl
          have hlen2 : st2.stream.length ≤ n := by
            have h1 := decodeLine_stream_length false st1 evts1 st2 hdl
            rw [hst1] at h1
            rw [hs] at hle
            simp at h1 hle
            omega
          obtain ⟨ihok, iherr⟩ := ih st2 hlen2 rest' hrec
          have hdupeq : hasDupPoint (evts1 ++ rest') =
              (hasAdjDup first pts || hasDupPoint rest') := by
            rw [hshape]
            exact hasDupPoint_block_append k first pts rest'
          have hdup1 : hasDupPoint evts1 = hasAdjDup first pts := by
            rw [hshape]
            exact hasDupPoint_block_nil k first pts
          constructor
          · intro hfalse
            rw [hdupeq] at hfalse
            simp only [Bool.or_eq_false_iff] at hfalse
            exact decode_linestring_go_cons true st st1 st2 evts1 rest' heq
              (hok1 (by rw [hdup1]; exact hfalse.1)) (ihok hfalse.2)
          · intro htrue
            rw [hdupeq] at htrue
            by_cases hA : hasAdjDup first pts = true
            · exact decode_linestring_go_line_error true st st1 _ heq
                (herr1 (by rw [hdup1]; exact hA))
            · have hR : hasDupPoint rest' = true := by
                simp only [Bool.or_eq_true] at htrue
                tauto
              exact decode_linestring_go_rec_error true st st1 st2 evts1 _ heq
                (hok1 (by rw [hdup1]; simpa using hA)) (iherr hR)

/-- C3: a linestring command stream that satisfies all format rules apart
from the strict-mode check (its non-strict decode succeeds) decodes to the
same events in strict mode when no LineTo parameter pair has both
zigzag-decoded deltas zero (no adjacent equal emitted points), and raises
the GeometryError for consecutive equal points in strict mode when such a
pair is present. -/
theorem claim_C3 (s : List Nat) (evts : List Event)
    (h : decode_linestring_geometry s false = .ok evts) :
    (hasDupPoint evts = true →
      decode_linestring_geometry s true =
        .error "found consecutive equal points (spec 4.3.3.2) (strict mode)") ∧
    (hasDupPoint evts = false → decode_linestring_geometry s true = .ok evts) := by
  unfold decode_linestring_geometry at h ⊢
  have hvs := decode_linestring_go_strict_vs s.length ⟨s, ⟨0, 0⟩, 0, 0⟩ le_rfl evts h
  exact ⟨hvs.2, hvs.1⟩

/-- Witness for C3 on the stream `MoveTo(1) (1,1); LineTo(2) (0,0) (1,0)`:
the second LineTo pair has both deltas zero, so non-strict decoding
succeeds with a duplicated point and strict decoding rejects. -/
theorem claim_C3_witness :
    decode_linestring_geometry [9, 2, 2, 18, 0, 0, 2, 0] false =
      .ok [Event.linestring_begin 3, Event.linestring_point ⟨1, 1⟩,
           Event.linestring_point ⟨1, 1⟩, Event.linestring_point ⟨2, 1⟩,
           Event.linestring_end] ∧
    decode_linestring_geometry [9, 2, 2, 18, 0, 0, 2, 0] true =
      .error "found consecutive equal points (spec 4.3.3.2) (strict mode)" := by
  have np1 : next_point false ⟨[0, 0, 2, 0], ⟨1, 1⟩, 2, 2⟩ =
      .ok (⟨1, 1⟩, ⟨[2, 0], ⟨1, 1⟩, 2, 1⟩) := rfl
  have np2 : next_point false ⟨[2, 0], ⟨1, 1⟩, 2, 1⟩ =
      .ok (⟨2, 1⟩, ⟨[], ⟨2, 1⟩, 2, 0⟩) := rfl
  have hrp : readPoints false ⟨[0, 0, 2, 0], ⟨1, 1⟩, 2, 2⟩ =
      .ok ([⟨1, 1⟩, ⟨2, 1⟩], ⟨[], ⟨2, 1⟩, 2, 0⟩) :=
    readPoints_cons false _ _ _ _ _ (by decide) np1
      (readPoints_cons false _ _ _ _ _ (by decide) np2 (readPoints_zero false _ rfl))
  have hdl : decodeLine false ⟨[2, 2, 18, 0, 0, 2, 0], ⟨0, 0⟩, 1, 1⟩ =
      .ok ([Event.linestring_begin 3, Event.linestring_point ⟨1, 1⟩,
            Event.linestring_point ⟨1, 1⟩, Event.linestring_point ⟨2, 1⟩,
            Event.linestring_end], ⟨[], ⟨2, 1⟩, 2, 0⟩) := by
    unfold decodeLine
    simp only [show next_point false ⟨[2, 2, 18, 0, 0, 2, 0], ⟨0, 0⟩, 1, 1⟩ =
        .ok (⟨1, 1⟩, ⟨[18, 0, 0, 2, 0], ⟨1, 1⟩, 1, 0⟩) from rfl,
      show next_command 2 ⟨[18, 0, 0, 2, 0], ⟨1, 1⟩, 1, 0⟩ =
        .ok (true, ⟨[0, 0, 2, 0], ⟨1, 1⟩, 2, 2⟩) from rfl,
      hrp]
    norm_num
  have hev : decode_linestring_geometry [9, 2, 2, 18, 0, 0, 2, 0] false =
      .ok [Event.linestring_begin 3, Event.linestring_point ⟨1, 1⟩,
           Event.linestring_point ⟨1, 1⟩, Event.linestring_point ⟨2, 1⟩,
           Event.linestring_end] := by
    unfold decode_linestring_geometry
    have h := decode_linestring_go_cons false ⟨[9, 2, 2, 18, 0, 0, 2, 0], ⟨0, 0⟩, 0, 0⟩
      ⟨[2, 2, 18, 0, 0, 2, 0], ⟨0, 0⟩, 1, 1⟩ ⟨[], ⟨2, 1⟩, 2, 0⟩ _ _ rfl hdl
      (decode_linestring_go_nil false _ rfl)
    simpa using h
  exact ⟨hev, (claim_C3 _ _ hev).1 (by decide)⟩

/-- A field of a feature message at the record codec's contract level: a
`(field_number, wire_type, payload)` triple (the codec is external to the
library; its contract provides iteration of such triples over a payload). -/
inductive FeatField where
  | varintF (num : Nat) (val : Nat)
  | lenF (num : Nat) (payload : List Nat)
  | fixed32F (num : Nat) (val : Nat)
  | fixed64F (num : Nat) (val : Nat)
deriving DecidableEq, Repr

/-- A field of a layer message at the record codec's contract level.  The
payload of a length-delimited field is itself presented at the triple
level, because the only payloads the claims interpret are feature records;
byte-string payloads (layer names, keys, values) stay opaque throughout. -/
inductive PbfField where
  | varintF (num : Nat) (val : Nat)
  | lenF (num : Nat) (payload : List FeatField)
  | fixed32F (num : Nat) (val : Nat)
  | fixed64F (num : Nat) (val : Nat)
deriving DecidableEq, Repr

/-- The protobuf wire type number of a layer field. -/
def wireTypeNum : PbfField → Nat
  | .varintF _ _ => 0
  | .lenF _ _ => 2
  | .fixed32F _ _ => 5
  | .fixed64F _ _ => 1

/-- The field number of a layer field. -/
def fieldNum : PbfField → Nat
  | .varintF n _ => n
  | .lenF n _ => n
  | .fixed32F n _ => n
  | .fixed64F n _ => n

/-- The two error kinds the layer constructor can raise
(`format_exception` and `version_exception` in exception.hpp). -/
inductive LayerError where
  | format_exception (msg : String)
  | version_exception (version : Nat)
deriving DecidableEq, Repr

/-- The members the `layer` constructor fills while scanning the fields of
the layer message; table contents are only counted at this stage, as in
the source. -/
structure LayerData where
  version : Nat := 1
  extent : Nat := 4096
  num_features : Nat := 0
  name : Option (List FeatField) := none
  key_table_size : Nat := 0
  value_table_size : Nat := 0
deriving DecidableEq, Repr

/-- The default-initialized members of a fresh layer. -/
def initLayerData : LayerData := {}

/-- One arm of the switch in the layer constructor: a known
`(field, wire type)` combination updates the corresponding member, any
other combination raises a `format_exception` (the default branch). -/
def layerFieldStep (acc : LayerData) (f : PbfField) : Except LayerError LayerData :=
  match f with
  | PbfField.varintF 15 v => .ok { acc with version := v % 2 ^ 32 }
  | PbfField.lenF 1 bs => .ok { acc with name := some bs }
  | PbfField.lenF 2 _ => .ok { acc with num_features := acc.num_features + 1 }
  | PbfField.lenF 3 _ => .ok { acc with key_table_size := acc.key_table_size + 1 }
  | PbfField.lenF 4 _ => .ok { acc with value_table_size := acc.value_table_size + 1 }
  | PbfField.varintF 5 v => .ok { acc with extent := v % 2 ^ 32 }
  | f => .error (.format_exception ("unknown field in layer (tag=" ++
      toString (fieldNum f) ++ ", type=" ++ toString (wireTypeNum f) ++ ")"))

/-- The `while (reader.next())` loop of the layer constructor. -/
def parseLayerFields : List PbfField → LayerData → Except LayerError LayerData
  | [], acc => .ok acc
  | f :: rest, acc =>
    match layerFieldStep acc f with
    | .error e => .error e
    | .ok acc' => parseLayerFields rest acc'

/-- The layer constructor (layer.hpp): scan all fields, then reject a
version outside 1..2, then reject a missing name. -/
def layerCtor (fields : List PbfField) : Except LayerError LayerData :=
  match parseLayerFields fields initLayerData with
  | .error e => .error e
  | .ok d =>
    if d.version < 1 ∨ d.version > 2 then .error (.version_exception d.version)
    else if d.name = none then
      .error (.format_exception "missing name field in layer (spec 4.1)")
    else .ok d

/-- The payloads of the `keys` fields of a layer message, in order. -/
def keysOf (fields : List PbfField) : List (List FeatField) :=
  fields.filterMap fun f =>
    match f with
    | PbfField.lenF 3 bs => some bs
    | _ => none

/-- The payloads of the `values` fields of a layer message, in order. -/
def valuesOf (fields : List PbfField) : List (List FeatField) :=
  fields.filterMap fun f =>
    match f with
    | PbfField.lenF 4 bs => some bs
    | _ => none

/-- The mutable table members of a layer
(`m_key_table`, `m_value_table`, `m_key_table_size`, `m_value_table_size`). -/
structure TablesState where
  key_table : List (List FeatField)
  value_table : List (List FeatField)
  key_table_size : Nat
  value_table_size : Nat
deriving DecidableEq, Repr

/-- The table state of a freshly constructed layer: empty vectors with the
counted pending sizes. -/
def initTables (d : LayerData) : TablesState :=
  ⟨[], [], d.key_table_size, d.value_table_size⟩

/-- `layer::initialize_tables`: a single pass over the layer data pushes
every key and value payload, and both pending size counters are set to
zero before the scan. -/
def initialize_tables (fields : List PbfField) (st : TablesState) : TablesState :=
  { key_table := st.key_table ++ keysOf fields,
    value_table := st.value_table ++ valuesOf fields,
    key_table_size := 0,
    value_table_size := 0 }

/-- `layer::key_table`: runs the materialization pass only when the
pending key count is positive.  The third component records whether the
pass ran during this call. -/
def key_table_call (fields : List PbfField) (st : TablesState) :
    List (List FeatField) × TablesState × Bool :=
  if st.key_table_size > 0 then
    let st' := initialize_tables fields st
    (st'.key_table, st', true)
  else (st.key_table, st, false)

/-- `layer::value_table`: symmetric to `key_table`. -/
def value_table_call (fields : List PbfField) (st : TablesState) :
    List (List FeatField) × TablesState × Bool :=
  if st.value_table_size > 0 then
    let st' := initialize_tables fields st
    (st'.value_table, st', true)
  else (st.value_table, st, false)

/-- Which of the two lazy accessors a caller invokes. -/
inductive TableAccessor where
  | keyA
  | valueA
deriving DecidableEq, Repr

/-- Dispatch one accessor call. -/
def tableCall (fields : List PbfField) (a : TableAccessor) (st : TablesState) :
    List (List FeatField) × TablesState × Bool :=
  match a with
  | .keyA => key_table_call fields st
  | .valueA => value_table_call fields st

/-- How many times the materialization pass runs over a sequence of
accessor calls starting from the given table state. -/
def scanCount (fields : List PbfField) : List TableAccessor → TablesState → Nat
  | [], _ => 0
  | a :: rest, st =>
    let r := tableCall fields a st
    (if r.2.2 then 1 else 0) + scanCount fields rest r.2.1

/-- Scan a feature record for its `id` field (field 1, varint), the way
`pbf_message::next(pbf_feature::id, varint)` does. -/
def featureIdField : List FeatField → Option Nat
  | [] => none
  | FeatField.varintF 1 v :: _ => some v
  | _ :: rest => featureIdField rest

/-- Modelled from the spec: `feature::id()` lives in feature.hpp, which is
not among the sources at hand; the specification states
`id() → uint64 (0 if absent)`. -/
def feature_id (f : List FeatField) : Nat :=
  (featureIdField f).getD 0

/-- Does this layer field hold a feature whose explicit id equals `i`?
(the body of the scan loop of `layer::get_feature_by_id`). -/
def featureMatch (f : PbfField) (i : Nat) : Option (List FeatField) :=
  match f with
  | PbfField.lenF 2 sub => if featureIdField sub = some i then some sub else none
  | _ => none

/-- The scan loop of `layer::get_feature_by_id` over a fresh reader. -/
def lookupFeatureById : List PbfField → Nat → Option (List FeatField)
  | [], _ => none
  | fld :: rest, i =>
    match featureMatch fld i with
    | some sub => some sub
    | none => lookupFeatureById rest i

/-- A layer object at runtime: its data and the resumable feature reader
`m_layer_reader` (the remaining fields of the layer message). -/
structure LayerObj where
  data : List PbfField
  layer_reader : List PbfField
deriving DecidableEq, Repr

/-- Is this layer field a `features` field (field 2, length-delimited)?
If so, return its payload. -/
def featureField? (f : PbfField) : Option (List FeatField) :=
  match f with
  | PbfField.lenF 2 sub => some sub
  | _ => none

/-- Advance a reader to the next `features` field
(`pbf_message::next(pbf_layer::features, length_delimited)`), returning
its payload and the remaining fields. -/
def findFeature : List PbfField → Option (List FeatField × List PbfField)
  | [] => none
  | f :: rest =>
    match featureField? f with
    | some sub => some (sub, rest)
    | none => findFeature rest

/-- `layer::next_feature`: consume the layer reader up to and including
the next feature field. -/
def next_feature (L : LayerObj) : Option (List FeatField) × LayerObj :=
  match findFeature L.layer_reader with
  | some (payload, rest) => (some payload, { L with layer_reader := rest })
  | none => (none, { L with layer_reader := [] })

/-- `layer::get_feature_by_id`: a const method scanning with its own fresh
reader over `m_data`; the returned layer object is the receiver after the
call. -/
def get_feature_by_id (L : LayerObj) (i : Nat) : Option (List FeatField) × LayerObj :=
  (lookupFeatureById L.data i, L)

theorem findFeature_length :
    ∀ (l : List PbfField) (sub : List FeatField) (rest : List PbfField),
      findFeature l = some (sub, rest) → rest.length < l.length := by
  intro l
  induction l with
  | nil =>
    intro sub rest h
    cases h
  | cons f t ih =>
    intro sub rest h
    simp only [findFeature] at h
    split at h
    · simp only [Option.some.injEq, Prod.mk.injEq] at h
      rw [← h.2]
      simp
    · have hlt := ih sub rest h
      simp only [List.length_cons]
      omega

/-- The sequence of features produced by repeatedly calling
`next_feature` until it returns the invalid feature. -/
def featureSeq (L : LayerObj) : List (List FeatField) :=
  match hf : findFeature L.layer_reader with
  | some (p, rest) => p :: featureSeq ⟨L.data, rest⟩
  | none => []
termination_by L.layer_reader.length
decreasing_by
  exact findFeature_length _ _ _ hf

theorem layerFieldStep_version (acc : LayerData) (f : PbfField) (acc' : LayerData)
    (h : layerFieldStep acc f = .ok acc') (hne : ∀ v, f ≠ PbfField.varintF 15 v) :
    acc'.version = acc.version := by
  unfold layerFieldStep at h
  split at h
  · rename_i v
    exact absurd rfl (hne v)
  · simp only [Except.ok.injEq] at h
    rw [← h]
  · simp only [Except.ok.injEq] at h
    rw [← h]
  · simp only [Except.ok.injEq] at h
    rw [← h]
  · simp only [Except.ok.injEq] at h
    rw [← h]
  · simp only [Except.ok.injEq] at h
    rw [← h]
  · cases h

theorem parseLayerFields_version (fields : List PbfField) :
    ∀ (acc d : LayerData), parseLayerFields fields acc = .ok d →
      (∀ v, PbfField.varintF 15 v ∉ fields) → d.version = acc.version := by
  induction fields with
  | nil =>
    intro acc d h hno
    simp only [parseLayerFields, Except.ok.injEq] at h
    rw [← h]
  | cons f rest ih =>
    intro acc d h hno
    simp only [parseLayerFields] at h
    split at h
    · cases h
    · rename_i acc' heq
      have h1 := ih acc' d h (fun v hv => hno v (List.mem_cons_of_mem f hv))
      have h2 := layerFieldStep_version acc f acc' heq
        (fun v hfv => hno v (by rw [hfv]; exact List.mem_cons_self _ _))
      rw [h1, h2]

/-- C5 counterexample: a layer whose name field is present but empty is
accepted by the constructor (the claim asserts it is rejected). -/
theorem claim_C5_counterexample :
    layerCtor [PbfField.lenF 1 []] = .ok ⟨1, 4096, 0, some [], 0, 0⟩ := rfl

/-- C5 amended: the constructor rejects a layer with no name field with a
`format_exception`, but only checks presence: any present name, the empty
byte string included, is accepted (given an in-range version). -/
theorem claim_C5_amended :
    (∀ (fields : List PbfField) (d : LayerData),
      parseLayerFields fields initLayerData = .ok d →
      1 ≤ d.version → d.version ≤ 2 → d.name = none →
      layerCtor fields = .error (.format_exception "missing name field in layer (spec 4.1)")) ∧
    (∀ (fields : List PbfField) (d : LayerData) (bs : List FeatField),
      parseLayerFields fields initLayerData = .ok d →
      1 ≤ d.version → d.version ≤ 2 → d.name = some bs →
      layerCtor fields = .ok d) := by
  constructor
  · intro fields d hparse h1 h2 hname
    unfold layerCtor
    simp only [hparse]
    rw [if_neg (by omega), if_pos hname]
  · intro fields d bs hparse h1 h2 hname
    unfold layerCtor
    simp only [hparse]
    rw [if_neg (by omega), if_neg (by simp [hname])]

/-- Witness for the amended C5: a layer with no fields at all has no name
and default version 1, and is rejected with the missing-name error. -/
theorem claim_C5_witness :
    layerCtor [] = .error (.format_exception "missing name field in layer (spec 4.1)") :=
  claim_C5_amended.1 [] initLayerData rfl (by decide) (by decide) rfl

/-- C6: the constructor raises `version_exception` carrying the parsed
version whenever it lies outside 1..2, accepts versions 1 and 2 when a
name is present, and the version defaults to 1 when no version field
occurs among the fields. -/
theorem claim_C6 (fields : List PbfField) (d : LayerData)
    (hparse : parseLayerFields fields initLayerData = .ok d) :
    (¬(1 ≤ d.version ∧ d.version ≤ 2) →
      layerCtor fields = .error (.version_exception d.version)) ∧
    (1 ≤ d.version → d.version ≤ 2 → d.name ≠ none → layerCtor fields = .ok d) ∧
    ((∀ v, PbfField.varintF 15 v ∉ fields) → d.version = 1) := by
  refine ⟨?_, ?_, ?_⟩
  · intro hbad
    unfold layerCtor
    simp only [hparse]
    rw [if_pos (by omega)]
  · intro h1 h2 hname
    unfold layerCtor
    simp only [hparse]
    rw [if_neg (by omega), if_neg hname]
  · intro hno
    exact parseLayerFields_version fields initLayerData d hparse hno

/-- Witness for C6: a layer record with `version=3` and a (present) name
is rejected with `version_exception{3}`. -/
theorem claim_C6_witness :
    layerCtor [PbfField.lenF 1 [], PbfField.varintF 15 3] =
      .error (.version_exception 3) :=
  (claim_C6 [PbfField.lenF 1 [], PbfField.varintF 15 3]
    ⟨3, 4096, 0, some [], 0, 0⟩ rfl).1 (by decide)

theorem tableCall_scan_zeroes (fields : List PbfField) (a : TableAccessor) (st : TablesState)
    (h : (tableCall fields a st).2.2 = true) :
    (tableCall fields a st).2.1.key_table_size = 0 ∧
    (tableCall fields a st).2.1.value_table_size = 0 := by
  cases a with
  | keyA =>
    by_cases hpos : st.key_table_size > 0
    · simp [tableCall, key_table_call, hpos, initialize_tables]
    · simp [tableCall, key_table_call, hpos] at h
  | valueA =>
    by_cases hpos : st.value_table_size > 0
    · simp [tableCall, value_table_call, hpos, initialize_tables]
    · simp [tableCall, value_table_call, hpos] at h

theorem tableCall_no_scan (fields : List PbfField) (a : TableAccessor) (st : TablesState)
    (h : ¬(tableCall fields a st).2.2 = true) :
    (tableCall fields a st).2.1 = st := by
  cases a with
  | keyA =>
    by_cases hpos : st.key_table_size > 0
    · simp [tableCall, key_table_call, hpos] at h
    · simp [tableCall, key_table_call, hpos]
  | valueA =>
    by_cases hpos : st.value_table_size > 0
    · simp [tableCall, value_table_call, hpos] at h
    · simp [tableCall, value_table_call, hpos]

theorem scanCount_zeroed (fields : List PbfField) :
    ∀ (calls : List TableAccessor) (st : TablesState),
      st.key_table_size = 0 → st.value_table_size = 0 →
      scanCount fields calls st = 0 := by
  intro calls
  induction calls with
  | nil =>
    intro st h1 h2
    rfl
  | cons a rest ih =>
    intro st h1 h2
    have hcall : tableCall fields a st = (match a with
        | TableAccessor.keyA => st.key_table
        | TableAccessor.valueA => st.value_table, st, false) := by
      cases a
      · simp [tableCall, key_table_call, h1]
      · simp [tableCall, value_table_call, h2]
    simp only [scanCount, hcall]
    simpa using ih st h1 h2

/-- C8 counterexample: a layer with zero keys and one value.  The first
accessor call (`key_table`) does not run the materialization pass and
leaves the value vector unbuilt, and the subsequent `value_table` call
scans the data — contradicting the claim that the first call builds both
vectors and that later calls never scan. -/
theorem claim_C8_counterexample :
    layerCtor [PbfField.lenF 1 [], PbfField.lenF 4 []] = .ok ⟨1, 4096, 0, some [], 0, 1⟩ ∧
    (key_table_call [PbfField.lenF 1 [], PbfField.lenF 4 []]
      (initTables ⟨1, 4096, 0, some [], 0, 1⟩)).2.2 = false ∧
    (key_table_call [PbfField.lenF 1 [], PbfField.lenF 4 []]
      (initTables ⟨1, 4096, 0, some [], 0, 1⟩)).2.1.value_table = [] ∧
    valuesOf [PbfField.lenF 1 [], PbfField.lenF 4 []] = [[]] ∧
    (value_table_call [PbfField.lenF 1 [], PbfField.lenF 4 []]
      ((key_table_call [PbfField.lenF 1 [], PbfField.lenF 4 []]
        (initTables ⟨1, 4096, 0, some [], 0, 1⟩)).2.1)).2.2 = true :=
  ⟨rfl, rfl, rfl, rfl, rfl⟩

/-- C8 amended: across any sequence of `key_table`/`value_table` calls and
from any table state, the materialization pass runs at most once: a call
scans only while its own pending counter is positive, the pass zeroes both
counters, and every call after the pass returns the cached vector without
scanning. -/
theorem claim_C8_amended (fields : List PbfField) (calls : List TableAccessor)
    (st : TablesState) : scanCount fields calls st ≤ 1 := by
  induction calls generalizing st with
  | nil => simp [scanCount]
  | cons a rest ih =>
    simp only [scanCount]
    by_cases hscan : (tableCall fields a st).2.2 = true
    · rw [if_pos hscan]
      obtain ⟨hz1, hz2⟩ := tableCall_scan_zeroes fields a st hscan
      rw [scanCount_zeroed fields rest _ hz1 hz2]
    · rw [if_neg hscan]
      simpa using ih ((tableCall fields a st).2.1)

/-- C9: `get_feature_by_id` scans with its own fresh reader over the layer
data and leaves the layer's feature-iteration state untouched: the layer
object after the call is the receiver itself, so the next `next_feature`
result and the whole remaining feature sequence are unchanged. -/
theorem claim_C9 (L : LayerObj) (i : Nat) :
    (get_feature_by_id L i).2 = L ∧
    next_feature (get_feature_by_id L i).2 = next_feature L ∧
    featureSeq (get_feature_by_id L i).2 = featureSeq L :=
  ⟨rfl, rfl, rfl⟩

theorem featureMatch_some (f : PbfField) (i : Nat) (sub : List FeatField)
    (h : featureMatch f i = some sub) : featureIdField sub = some i := by
  unfold featureMatch at h
  split at h
  · split at h
    · rename_i hid
      simp only [Option.some.injEq] at h
      rw [← h]
      exact hid
    · cases h
  · cases h

/-- C10: `get_feature_by_id` matches only features whose record contains
an explicit id field equal to the requested id; a feature without an id
field is never returned (in particular not for id 0), even though the
feature's `id()` accessor yields 0 for it. -/
theorem claim_C10 :
    (∀ (data : List PbfField) (i : Nat) (f : List FeatField),
      lookupFeatureById data i = some f → featureIdField f = some i) ∧
    (∀ (f : List FeatField), featureIdField f = none → feature_id f = 0) := by
  constructor
  · intro data
    induction data with
    | nil =>
      intro i f h
      cases h
    | cons fld rest ih =>
      intro i f h
      simp only [lookupFeatureById] at h
      split at h
      · rename_i sub heq
        simp only [Option.some.injEq] at h
        rw [← h]
        exact featureMatch_some fld i sub heq
      · exact ih i f h
  · intro f h
    unfold feature_id
    rw [h]
    rfl

/-- Witness for C10: in a layer with one feature carrying explicit id 5,
the lookup returns that feature and the theorem forces its id field to be
5; a feature record with no id field reads back id 0. -/
theorem claim_C10_witness :
    featureIdField [FeatField.varintF 1 5] = some 5 ∧
    feature_id [FeatField.lenF 4 []] = 0 :=
  ⟨claim_C10.1 [PbfField.lenF 2 [FeatField.varintF 1 5]] 5 [FeatField.varintF 1 5] rfl,
   claim_C10.2 [FeatField.lenF 4 []] rfl⟩

end Vtzero
